import Mathlib

/-!
Verification development for the heat operation-dispatch core
(src/heat/core/operations.py): a shallow embedding of the dispatch layer
for a distributed n-dimensional array, together with theorems about the
dispatchers.  Local slices are modelled as total functions from index
lists to rational values; the external torch compute kernels are taken as
function parameters exactly as the source passes them in; the MPI
communicator is modelled as a capability record.  Python exceptions are
modelled by an error sum type returned through Except.
-/

namespace Heat

/-- Error classes raised by the dispatch layer, mirroring the Python
exception classes that operations.py raises (TypeError, ValueError,
NotImplementedError, the axis error raised by axis sanitation, and a
marker for attribute access on a missing communicator). -/
inductive Err where
  | typeError
  | valueError
  | notImplementedError
  | axisError
  | crash
deriving DecidableEq, Repr

/-- Closed set of element dtypes of the tensor container (heat's type
registry is an external collaborator; this is its carrier). -/
inductive HType where
  | bool
  | uint8
  | int32
  | int64
  | float32
  | float64
deriving DecidableEq, Repr

/-- Numeric promotion rank of a dtype; integers below floats. -/
def HType.rnk : HType → Nat
  | .bool => 0
  | .uint8 => 1
  | .int32 => 2
  | .int64 => 3
  | .float32 => 4
  | .float64 => 5

/-- Whether a dtype is a floating-point kind. -/
def HType.isFloat : HType → Bool
  | .float32 => true
  | .float64 => true
  | _ => false

/-- Modelled from the spec: the Type Registry's promote operation
(types module is not under src/).  Promotion picks the dtype of higher
numeric rank, so promoting with float32 always yields a floating kind. -/
def promote_types (a b : HType) : HType :=
  if a.rnk ≤ b.rnk then b else a

/-- Cast of a numeric value into a dtype: floating dtypes keep the value,
integer dtypes truncate toward zero, booleans collapse to 0 or 1
(models the behaviour of a torch .type cast on the element values). -/
def castVal (d : HType) (v : ℚ) : ℚ :=
  match d with
  | .float32 => v
  | .float64 => v
  | .bool => if v = 0 then 0 else 1
  | _ => ((v.num.tdiv (v.den : ℤ) : ℤ) : ℚ)

/-- Reduction-kind tags of the communicator facade (MPI.SUM, MPI.MIN,
MPI.MAX, MPI.LAND). -/
inductive RedKind where
  | SUM
  | MIN
  | MAX
  | LAND
deriving DecidableEq, Repr

/-- Modelled from the spec: the Communicator Facade (communication module
is not under src/).  It exposes rank identity, world size, the
distribution predicate, the partition-arithmetic chunk offset for a
global shape and split axis, and the data effect of a blocking
all-reduce, all as abstract capabilities. -/
structure Comm where
  rnk : Nat
  size : Nat
  isDistributed : Bool
  chunkOffset : List Nat → Nat → Nat
  allreduce : RedKind → (List Nat → ℚ) → (List Nat → ℚ)

/-- The Tensor Handle: logical global shape, the local slice's shape, the
local slice itself as a total function from index lists to values, the
element dtype, the optional split axis, and opaque device/communicator
tags (None in Python is modelled by Option.none). -/
structure HTensor where
  gshape : List Nat
  lshape : List Nat
  data : List Nat → ℚ
  dtype : HType
  split : Option Nat
  device : Option Nat
  comm : Option Comm

/-- Pointwise dtype cast of a tensor (tensor.astype). -/
def HTensor.astype (t : HTensor) (d : HType) : HTensor :=
  { t with data := fun i => castVal d (t.data i), dtype := d }

/-- An operand of the binary dispatcher: a plain numeric scalar (with the
dtype its numpy representation carries) or a tensor handle, mirroring the
np.isscalar / isinstance dynamic dispatch of the source. -/
inductive Operand where
  | scalar (dtype : HType) (val : ℚ)
  | tens (t : HTensor)

/-- Embedding of tensor.array([s]) for a plain numeric scalar s (the
tensor construction factory is an external collaborator): a fully
replicated shape-(1,) tensor with no device or communicator tag. -/
def arrayOfScalar (d : HType) (v : ℚ) : HTensor :=
  ⟨[1], [1], fun _ => v, d, none, none, none⟩

/-- Modelled from the spec: stride_tricks.sanitize_axis (module not under
src/): accepts none or an integer, normalizes a negative axis by adding
the rank, and rejects out-of-range values with an axis error. -/
def sanitize_axis (shape : List Nat) (axis : Option ℤ) : Except Err (Option Nat) :=
  match axis with
  | none => .ok none
  | some a =>
    if a < 0 then
      if a + shape.length < 0 then .error .axisError
      else .ok (some (a + shape.length).toNat)
    else if a < shape.length then .ok (some a.toNat)
    else .error .axisError

/-- Modelled from the spec: stride_tricks.broadcast_shape (module not
under src/), working over the reversed shapes: numpy-style
trailing-dimension alignment where size-1 axes expand; incompatible
extents give a ValueError-class failure. -/
def bcRev : List Nat → List Nat → Except Err (List Nat)
  | [], t => .ok t
  | a :: s, [] => .ok (a :: s)
  | a :: s, b :: t =>
    match bcRev s t with
    | .error e => .error e
    | .ok r =>
      if a = b ∨ a = 1 ∨ b = 1 then .ok (max a b :: r) else .error .valueError

/-- Modelled from the spec: numpy-style broadcast of two shapes. -/
def broadcast_shape (s t : List Nat) : Except Err (List Nat) :=
  (bcRev s.reverse t.reverse).map List.reverse

/-- Index into an operand of local shape s from an index of the broadcast
result: trailing dimensions are aligned and size-1 axes are clamped to
index 0 (torch broadcasting semantics on the local buffers). -/
def bcIndex (s idx : List Nat) : List Nat :=
  List.zipWith (fun sd i => if sd = 1 then 0 else i) s (idx.drop (idx.length - s.length))

/-- Total pointwise broadcast of two local shapes: the shape of the torch
result buffer for a broadcasting binary kernel, on reversed shapes. -/
def bcShapeRev : List Nat → List Nat → List Nat
  | [], t => t
  | a :: s, [] => a :: s
  | a :: s, b :: t => max a b :: bcShapeRev s t

/-- Total pointwise broadcast of two local shapes (trailing alignment). -/
def bcShape (s t : List Nat) : List Nat :=
  (bcShapeRev s.reverse t.reverse).reverse

/-- A torch elementwise binary kernel applied to two local buffers with
broadcasting: each operand is read through its broadcast index map. -/
def torchBinary (f : ℚ → ℚ → ℚ) (aSh : List Nat) (a : List Nat → ℚ)
    (bSh : List Nat) (b : List Nat → ℚ) : List Nat → ℚ :=
  fun idx => f (a (bcIndex aSh idx)) (b (bcIndex bSh idx))

/-- Embedding of operations.__binary_op.  The control flow mirrors the
source: scalar operands are promoted via arrayOfScalar, the non-primary
operand is cast to the primary operand's dtype when the dtypes differ,
broadcast_shape is computed for two genuine tensors (and, as in the
source, its value is then overwritten by t1.shape for the output
metadata), the split-compatibility rule rejects a second operand whose
split is neither none nor equal to the first operand's split, and the
torch kernel runs on the local slices only. -/
def binary_op (f : ℚ → ℚ → ℚ) (t1 t2 : Operand) : Except Err HTensor :=
  match t1 with
  | .scalar d1 v1 =>
    let a1 := arrayOfScalar d1 v1
    match t2 with
    | .scalar d2 v2 =>
      let a2 := arrayOfScalar d2 v2
      let a1c := if a1.dtype ≠ a2.dtype then a1.astype a2.dtype else a1
      .ok ⟨[1], bcShape a1c.lshape a2.lshape,
           torchBinary f a1c.lshape a1c.data a2.lshape a2.data,
           a1c.dtype, none, none, none⟩
    | .tens b =>
      let a1c := if a1.dtype ≠ b.dtype then a1.astype b.dtype else a1
      .ok ⟨b.gshape, bcShape a1c.lshape b.lshape,
           torchBinary f a1c.lshape a1c.data b.lshape b.data,
           a1c.dtype, b.split, b.device, b.comm⟩
  | .tens a =>
    match t2 with
    | .scalar d2 v2 =>
      let b := arrayOfScalar d2 v2
      let bc := if b.dtype ≠ a.dtype then b.astype a.dtype else b
      .ok ⟨a.gshape, bcShape a.lshape bc.lshape,
           torchBinary f a.lshape a.data bc.lshape bc.data,
           a.dtype, a.split, a.device, a.comm⟩
    | .tens b =>
      match broadcast_shape a.gshape b.gshape with
      | .error e => .error e
      | .ok _bshape =>
        if b.split = none ∨ b.split = a.split then
          let bc := if b.dtype ≠ a.dtype then b.astype a.dtype else b
          .ok ⟨a.gshape, bcShape a.lshape bc.lshape,
               torchBinary f a.lshape a.data bc.lshape bc.data,
               a.dtype, a.split, a.device, a.comm⟩
        else .error .notImplementedError

/-- Tensor of shape (1,) holding a single value 5, used as a concrete
operand below. -/
def sampleOne : HTensor := ⟨[1], [1], fun _ => 5, .float32, none, none, none⟩

/-- Tensor of shape (3,) holding the values 1, 2, 3. -/
def sampleThree : HTensor := ⟨[3], [3], fun idx => (idx.headD 0 : ℚ) + 1, .float32, none, none, none⟩

/-- Unsplit tensor of shape (2,). -/
def sampleUnsplit : HTensor := ⟨[2], [2], fun _ => 1, .float32, none, none, none⟩

/-- Tensor of shape (2,) split along axis 0. -/
def sampleSplit0 : HTensor := ⟨[2], [2], fun _ => 2, .float32, some 0, none, none⟩

/-- C10: a binary elementwise operation on two plain numeric scalars
yields a tensor of global shape (1,) with split none and no device or
communicator tag, whose single element is the operation applied to the
two scalars after the first is cast to the second's dtype when the
dtypes differ. -/
theorem binary_scalar_scalar (f : ℚ → ℚ → ℚ) (d1 d2 : HType) (v1 v2 : ℚ) :
    ∃ r, binary_op f (.scalar d1 v1) (.scalar d2 v2) = .ok r ∧
      r.gshape = [1] ∧ r.split = none ∧ r.device = none ∧ r.comm = none ∧
      r.data [0] = f (if d1 ≠ d2 then castVal d2 v1 else v1) v2 := by
  refine ⟨_, rfl, rfl, rfl, rfl, rfl, ?_⟩
  by_cases h : d1 = d2 <;>
    simp [binary_op, arrayOfScalar, HTensor.astype, torchBinary, bcIndex, h]

/-- C2 (code bug): the binary dispatcher computes the numpy broadcast of
the two operand shapes but then overwrites the output global shape with
the first operand's shape.  At operand shapes (1,) and (3,) the broadcast
is (3,), the torch result buffer holds three elements, yet the returned
handle's global shape is (1,). -/
theorem binary_broadcast_bug :
    broadcast_shape [1] [3] = .ok [3] ∧
    ∃ r, binary_op (fun a b => a + b) (.tens sampleOne) (.tens sampleThree) = .ok r ∧
      r.gshape = [1] ∧ r.lshape = [3] ∧ r.data [2] = 8 := by
  refine ⟨rfl, _, rfl, rfl, rfl, ?_⟩
  norm_num [sampleOne, sampleThree, torchBinary, bcIndex]

/-- C3 counterexample: a first operand with split none and a second
operand with split 0 is rejected with a NotImplementedError-class error,
although the claim states that the operation is permitted whenever at
least one operand's split axis is none. -/
theorem binary_split_cex :
    sampleUnsplit.split = none ∧ sampleSplit0.split = some 0 ∧
    binary_op (fun a b => a + b) (.tens sampleUnsplit) (.tens sampleSplit0) =
      .error .notImplementedError := by
  exact ⟨rfl, rfl, rfl⟩

/-- C3 (amended): for two tensor operands with broadcast-compatible
shapes, the binary dispatcher succeeds exactly when the second operand's
split axis is none or equals the first operand's split axis; every other
combination raises a NotImplementedError-class error and never returns a
result. -/
theorem binary_split_rule (f : ℚ → ℚ → ℚ) (a b : HTensor) (bs : List Nat)
    (hbc : broadcast_shape a.gshape b.gshape = .ok bs) :
    ((b.split = none ∨ b.split = a.split) →
        ∃ r, binary_op f (.tens a) (.tens b) = .ok r) ∧
    (¬(b.split = none ∨ b.split = a.split) →
        binary_op f (.tens a) (.tens b) = .error .notImplementedError) := by
  constructor <;> intro h <;> simp [binary_op, hbc, h]

/-- Witness for the amended C3 theorem at a concrete pair of operands. -/
theorem binary_split_rule_witness :
    broadcast_shape sampleUnsplit.gshape sampleSplit0.gshape = .ok [2] ∧
    ¬(sampleSplit0.split = none ∨ sampleSplit0.split = sampleUnsplit.split) ∧
    binary_op (fun a b => a * b) (.tens sampleUnsplit) (.tens sampleSplit0) =
      .error .notImplementedError :=
  ⟨rfl, by decide,
    (binary_split_rule (fun a b => a * b) sampleUnsplit sampleSplit0 [2] rfl).2 (by decide)⟩

/-- Index map of a torch repeat with the given padded base shape: each
dimension is taken modulo the base extent and the leading padding
dimensions are dropped, yielding an index into the original buffer. -/
def repIndex (padded : List Nat) (origRank : Nat) (idx : List Nat) : List Nat :=
  (List.zipWith (fun i p => i % p) idx padded).drop (padded.length - origRank)

/-- Embedding of operations.__local_operation: the unary elementwise
dispatcher.  The input dtype is promoted with float32 and the local
buffer cast accordingly; with no output handle a fresh tensor with the
input's global shape and metadata is returned.  With an output handle the
local shapes are broadcast (ValueError-class failure on incompatibility),
the per-axis repetition multiples are computed, the input is materially
repeated when some multiple exceeds one, and the kernel result is written
into the output handle's buffer, whose other metadata stays untouched. -/
def local_operation (f : ℚ → ℚ) (x : HTensor) (out : Option HTensor) : Except Err HTensor :=
  let promoted := promote_types x.dtype .float32
  let casted : List Nat → ℚ := fun i => castVal promoted (x.data i)
  match out with
  | none => .ok ⟨x.gshape, x.lshape, fun i => f (casted i), promoted, x.split, x.device, x.comm⟩
  | some o =>
    match broadcast_shape x.lshape o.lshape with
    | .error e => .error e
    | .ok bshape =>
      let padded := List.replicate (bshape.length - x.lshape.length) 1 ++ x.lshape
      let multiples := List.zipWith (fun a b => a / b) bshape padded
      let needsRep := multiples.any (fun m => 1 < m)
      let inputData : List Nat → ℚ :=
        if needsRep then fun i => casted (repIndex padded x.lshape.length i) else casted
      .ok { o with data := fun i => f (inputData i) }

/-- C7: the unary elementwise dispatcher with out=None returns a tensor
whose shape equals the input's global shape and whose dtype is the
promotion of the input dtype with the minimum floating-point type, which
is always a floating-point kind, so integer inputs never silently
truncate fractional results. -/
theorem local_op_promote (f : ℚ → ℚ) (x : HTensor) :
    ∃ r, local_operation f x none = .ok r ∧ r.gshape = x.gshape ∧
      r.dtype = promote_types x.dtype HType.float32 ∧ r.dtype.isFloat = true := by
  refine ⟨_, rfl, rfl, rfl, ?_⟩
  show (promote_types x.dtype HType.float32).isFloat = true
  cases x.dtype <;> rfl

/-- A local partial-reduction kernel (torch.sum / torch.min / torch.max /
the byte-all closure): reduction of the whole slice to one value,
keepdim-reduction along one axis, and the dtype of the partial result. -/
structure PartOp where
  redAll : (List Nat → ℚ) → ℚ
  redAxis : (List Nat → ℚ) → Nat → (List Nat → ℚ)
  outDtype : HType → HType

/-- Outcome of the reduction dispatcher: the returned tensor or error,
the sequence of collective calls issued (with their reduction-kind
tags), and whether a caller-supplied output handle was written and
returned. -/
structure ReduceOut where
  result : Except Err HTensor
  comms : List RedKind
  usedOut : Bool

/-- Logical output shape of a reduction: (1,) for a full reduction, or
the input shape with the reduced axis kept at size 1 (python lines
1100 and 1103). -/
def reduceOutputShape (g : List Nat) : Option Nat → List Nat
  | none => [1]
  | some a => g.take a ++ 1 :: g.drop (a + 1)

/-- Embedding of operations.__reduce_op.  The axis is sanitized, the
local partial reduction computed, a supplied output handle's shape
checked against the output shape before any collective call, and one
blocking all-reduce issued exactly when the tensor is split and the
reduction axis is none or equals the split axis and the communicator is
distributed, in which case the result split becomes none.  With an
output handle its data, dtype, split, device and communicator are all
replaced together and the handle returned; otherwise a fresh tensor is
built. -/
def reduce_op (x : HTensor) (p : PartOp) (kind : RedKind) (axis0 : Option ℤ)
    (out : Option HTensor) : ReduceOut :=
  match sanitize_axis x.gshape axis0 with
  | .error e => ⟨.error e, [], false⟩
  | .ok axis =>
    let pd : List Nat → ℚ :=
      match axis with
      | none => fun _ => p.redAll x.data
      | some a => p.redAxis x.data a
    let oshape := reduceOutputShape x.gshape axis
    let plshape := reduceOutputShape x.lshape axis
    let commStep : Except Err (Option Nat × List RedKind × (List Nat → ℚ)) :=
      if x.split.isSome && (axis.isNone || axis == x.split) then
        match x.comm with
        | none => .error .crash
        | some c =>
          if c.isDistributed then .ok (none, [kind], c.allreduce kind pd)
          else .ok (none, [], pd)
      else .ok (x.split, [], pd)
    match out with
    | some o =>
      if o.gshape ≠ oshape then ⟨.error .valueError, [], false⟩
      else
        match commStep with
        | .error e => ⟨.error e, [], false⟩
        | .ok (s2, cs, d2) =>
          ⟨.ok { o with
                  lshape := plshape
                  data := d2
                  dtype := p.outDtype x.dtype
                  split := s2
                  device := x.device
                  comm := x.comm }, cs, true⟩
    | none =>
      match commStep with
      | .error e => ⟨.error e, [], false⟩
      | .ok (s2, cs, d2) =>
        ⟨.ok ⟨oshape, plshape, d2, p.outDtype x.dtype, s2, x.device, x.comm⟩, cs, false⟩

/-- Sanitizing a nonnegative in-range axis argument is the identity. -/
lemma sanitize_axis_natCast (shape : List Nat) (ax : Option Nat)
    (h : ∀ a ∈ ax, a < shape.length) :
    sanitize_axis shape (ax.map (fun a => (a : ℤ))) = .ok ax := by
  cases ax with
  | none => rfl
  | some a =>
    have ha : a < shape.length := h a rfl
    show sanitize_axis shape (some ((a : ℕ) : ℤ)) = .ok (some a)
    have h0 : ¬ ((a : ℤ) < 0) := by omega
    have h1 : ((a : ℤ) < (shape.length : ℤ)) := by exact_mod_cast ha
    simp [sanitize_axis, h0, h1]

/-- Behaviour of the reduction dispatcher on the fresh-result path: the
call succeeds, the result has the computed output shape, its split is
cleared exactly when the reduction crosses the split axis, and the
collective calls issued are one all-reduce with the kind tag when the
reduction crosses the split axis on a distributed communicator, and none
otherwise. -/
lemma reduce_op_fresh_spec (x : HTensor) (p : PartOp) (kind : RedKind) (axis : Option Nat)
    (c : Comm) (hc : x.comm = some c) (ha : ∀ a ∈ axis, a < x.gshape.length) :
    ∃ r, (reduce_op x p kind (axis.map (fun a => (a : ℤ))) none).result = .ok r ∧
      r.gshape = reduceOutputShape x.gshape axis ∧
      r.split = (if x.split.isSome && (axis.isNone || axis == x.split) then none else x.split) ∧
      (reduce_op x p kind (axis.map (fun a => (a : ℤ))) none).comms =
        (if x.split.isSome && (axis.isNone || axis == x.split) then
          (if c.isDistributed then [kind] else []) else []) := by
  have hsan := sanitize_axis_natCast x.gshape axis ha
  unfold reduce_op
  rw [hsan, hc]
  cases hb : (x.split.isSome && (axis.isNone || axis == x.split)) with
  | false =>
    simp only [hb, Bool.false_eq_true, if_false]
    exact ⟨_, rfl, rfl, rfl, trivial⟩
  | true =>
    cases hd : c.isDistributed with
    | false =>
      simp only [hb, hd, Bool.false_eq_true, if_true, if_false]
      exact ⟨_, rfl, rfl, rfl, trivial⟩
    | true =>
      simp only [hb, hd, if_true]
      exact ⟨_, rfl, rfl, rfl, trivial⟩

/-- A one-process communicator: not distributed. -/
def soloComm : Comm := ⟨0, 1, false, fun _ _ => 0, fun _ d => d⟩

/-- A two-process communicator reporting itself as distributed; its chunk
offset for every shape and axis is 1 on this process. -/
def distComm : Comm := ⟨0, 2, true, fun _ _ => 1, fun _ d => d⟩

/-- A trivial local partial-reduction kernel used as a concrete instance. -/
def idPartOp : PartOp := ⟨fun _ => 0, fun d _ => d, id⟩

/-- Vector of global shape (4,) split along axis 0 on a one-process
communicator. -/
def sampleSplitVec : HTensor := ⟨[4], [4], fun _ => 0, .float32, some 0, none, some soloComm⟩

/-- Vector of global shape (4,) split along axis 0 on a distributed
communicator. -/
def sampleSplitVecD : HTensor := ⟨[4], [4], fun _ => 0, .float32, some 0, none, some distComm⟩

/-- C1 counterexample: a tensor with a defined split axis reduced with
axis none on a non-distributed communicator issues no collective call at
all, although the claim demands exactly one blocking all-reduce whenever
the reduction axis is none or equals the split axis. -/
theorem reduce_comm_cex :
    sampleSplitVec.split = some 0 ∧
    (reduce_op sampleSplitVec idPartOp .SUM none none).comms = [] ∧
    ∃ r, (reduce_op sampleSplitVec idPartOp .SUM none none).result = .ok r ∧ r.split = none :=
  ⟨rfl, rfl, _, rfl, rfl⟩

/-- C1 (amended): for a tensor with a defined split axis, when the
sanitized reduction axis is none or equals the split axis the partial
results are combined by exactly one blocking all-reduce carrying the
reduction-kind tag provided the communicator is distributed (and by no
call on a non-distributed communicator), and the result's split is none;
for any other reduction axis no communication occurs and the result
keeps the original split axis. -/
theorem reduce_comm_amended (x : HTensor) (p : PartOp) (kind : RedKind) (c : Comm) (s : Nat)
    (axis : Option Nat) (hc : x.comm = some c) (hs : x.split = some s)
    (ha : ∀ a ∈ axis, a < x.gshape.length) :
    ((axis = none ∨ axis = some s) →
      (reduce_op x p kind (axis.map (fun a => (a : ℤ))) none).comms =
        (if c.isDistributed then [kind] else []) ∧
      ∃ r, (reduce_op x p kind (axis.map (fun a => (a : ℤ))) none).result = .ok r ∧
        r.split = none) ∧
    (∀ a : Nat, axis = some a → a ≠ s →
      (reduce_op x p kind (axis.map (fun a => (a : ℤ))) none).comms = [] ∧
      ∃ r, (reduce_op x p kind (axis.map (fun a => (a : ℤ))) none).result = .ok r ∧
        r.split = some s) := by
  obtain ⟨r, hres, hsh, hsplit, hcomms⟩ := reduce_op_fresh_spec x p kind axis c hc ha
  constructor
  · intro hax
    have hb : (x.split.isSome && (axis.isNone || axis == x.split)) = true := by
      rcases hax with h | h <;> simp [h, hs]
    rw [hb] at hsplit hcomms
    simp only [if_true] at hsplit hcomms
    exact ⟨hcomms, r, hres, hsplit⟩
  · intro a haxa hne
    have hb : (x.split.isSome && (axis.isNone || axis == x.split)) = false := by
      simp [haxa, hs, hne]
    rw [hb] at hsplit hcomms
    simp only [Bool.false_eq_true, if_false] at hsplit hcomms
    rw [hs] at hsplit
    exact ⟨hcomms, r, hres, hsplit⟩

/-- Witness for the amended C1 theorem on a distributed communicator:
the collective-call trace is one all-reduce with the SUM tag and the
result split is none. -/
theorem reduce_comm_amended_witness :
    sampleSplitVecD.comm = some distComm ∧ sampleSplitVecD.split = some 0 ∧
    (reduce_op sampleSplitVecD idPartOp .SUM none none).comms = [RedKind.SUM] ∧
    ∃ r, (reduce_op sampleSplitVecD idPartOp .SUM none none).result = .ok r ∧
      r.split = none := by
  refine ⟨rfl, rfl, ?_⟩
  have h := (reduce_comm_amended sampleSplitVecD idPartOp .SUM distComm 0 none rfl rfl
    (by simp)).1 (Or.inl rfl)
  simpa using h

/-- Fully replicated matrix of global shape (2, 3) on a one-process
communicator. -/
def sampleMat : HTensor := ⟨[2, 3], [2, 3], fun _ => 1, .float32, none, none, some soloComm⟩

/-- C5: a reduction with axis none has logical output shape (1,), and a
reduction along a sanitized integer axis has logical output shape equal
to the input's global shape with the entry at that axis replaced by 1. -/
theorem reduce_output_shapes (x : HTensor) (p : PartOp) (kind : RedKind) (c : Comm)
    (hc : x.comm = some c) :
    (∃ r, (reduce_op x p kind none none).result = .ok r ∧ r.gshape = [1]) ∧
    (∀ a : Nat, a < x.gshape.length →
      ∃ r, (reduce_op x p kind (some (a : ℤ)) none).result = .ok r ∧
        r.gshape = x.gshape.take a ++ 1 :: x.gshape.drop (a + 1) ∧
        r.gshape = x.gshape.set a 1) := by
  constructor
  · obtain ⟨r, hres, hsh, -, -⟩ := reduce_op_fresh_spec x p kind none c hc (by simp)
    exact ⟨r, hres, hsh⟩
  · intro a hlt
    obtain ⟨r, hres, hsh, -, -⟩ := reduce_op_fresh_spec x p kind (some a) c hc
      (by simpa using hlt)
    have h2 : r.gshape = x.gshape.take a ++ 1 :: x.gshape.drop (a + 1) := by
      rw [hsh]; rfl
    refine ⟨r, hres, h2, ?_⟩
    rw [h2, List.set_eq_take_cons_drop 1 hlt]

/-- Witness for C5 at a shape-(2,3) tensor reduced along axis 1. -/
theorem reduce_output_shapes_witness :
    sampleMat.comm = some soloComm ∧ (1 : Nat) < sampleMat.gshape.length ∧
    ∃ r, (reduce_op sampleMat idPartOp .SUM (some (1 : ℤ)) none).result = .ok r ∧
      r.gshape = [2, 1] := by
  refine ⟨rfl, by decide, ?_⟩
  obtain ⟨r, hres, hsh, -⟩ :=
    (reduce_output_shapes sampleMat idPartOp .SUM soloComm rfl).2 1 (by decide)
  exact ⟨r, hres, by rw [hsh]; rfl⟩

/-- C6: with a caller-supplied output handle, a shape mismatch raises a
ValueError-class error with an empty collective-call trace and the handle
not adopted; with matching shapes the call succeeds, the handle is the
returned result, and its dtype, split, device and communicator are
replaced by the computed values. -/
theorem reduce_out_handling (x : HTensor) (p : PartOp) (kind : RedKind) (axis : Option Nat)
    (o : HTensor) (c : Comm) (hc : x.comm = some c) (ha : ∀ a ∈ axis, a < x.gshape.length) :
    (o.gshape ≠ reduceOutputShape x.gshape axis →
      reduce_op x p kind (axis.map (fun a => (a : ℤ))) (some o) =
        ⟨.error .valueError, [], false⟩) ∧
    (o.gshape = reduceOutputShape x.gshape axis →
      ∃ r, (reduce_op x p kind (axis.map (fun a => (a : ℤ))) (some o)).result = .ok r ∧
        (reduce_op x p kind (axis.map (fun a => (a : ℤ))) (some o)).usedOut = true ∧
        r.gshape = o.gshape ∧ r.dtype = p.outDtype x.dtype ∧
        r.device = x.device ∧ r.comm = x.comm ∧
        r.split = (if x.split.isSome && (axis.isNone || axis == x.split) then none
                   else x.split)) := by
  have hsan := sanitize_axis_natCast x.gshape axis ha
  constructor
  · intro hne
    unfold reduce_op
    rw [hsan]
    simp [hne]
  · intro heq
    have hne' : ¬ (o.gshape ≠ reduceOutputShape x.gshape axis) := by simp [heq]
    unfold reduce_op
    rw [hsan, hc]
    cases hb : (x.split.isSome && (axis.isNone || axis == x.split)) with
    | false =>
      simp only [hb, Bool.false_eq_true, if_false]
      rw [if_neg hne']
      exact ⟨_, rfl, rfl, rfl, rfl, rfl, rfl, rfl⟩
    | true =>
      cases hd : c.isDistributed with
      | false =>
        simp only [hb, hd, Bool.false_eq_true, if_true, if_false]
        rw [if_neg hne']
        exact ⟨_, rfl, rfl, rfl, rfl, rfl, rfl, rfl⟩
      | true =>
        simp only [hb, hd, if_true]
        rw [if_neg hne']
        exact ⟨_, rfl, rfl, rfl, rfl, rfl, rfl, rfl⟩

/-- Output handle of the correct shape (1,) for a full reduction. -/
def sampleOutGood : HTensor := ⟨[1], [1], fun _ => 0, .float32, none, none, none⟩

/-- Output handle of the wrong shape (2,) for a full reduction. -/
def sampleOutBad : HTensor := ⟨[2], [2], fun _ => 0, .float32, none, none, none⟩

/-- Witness for C6 at concrete output handles of wrong and right shape. -/
theorem reduce_out_handling_witness :
    (sampleOutBad.gshape ≠ reduceOutputShape sampleMat.gshape none ∧
      reduce_op sampleMat idPartOp .SUM none (some sampleOutBad) =
        ⟨.error .valueError, [], false⟩) ∧
    (sampleOutGood.gshape = reduceOutputShape sampleMat.gshape none ∧
      ∃ r, (reduce_op sampleMat idPartOp .SUM none (some sampleOutGood)).result = .ok r ∧
        (reduce_op sampleMat idPartOp .SUM none (some sampleOutGood)).usedOut = true) := by
  constructor
  · exact ⟨by decide,
      (reduce_out_handling sampleMat idPartOp .SUM none sampleOutBad soloComm rfl
        (by simp)).1 (by decide)⟩
  · obtain ⟨r, h1, h2, -⟩ :=
      (reduce_out_handling sampleMat idPartOp .SUM none sampleOutGood soloComm rfl
        (by simp)).2 (by decide)
    exact ⟨by decide, r, h1, h2⟩

/-- The inverse of an axis permutation given as a list: entry i is the
position of axis i within p. -/
def invPerm (p : List Nat) : List Nat :=
  (List.range p.length).map (fun i => p.indexOf i)

/-- Embedding of a list of natural axis numbers into the integers (the
Python axes tuples hold ints). -/
def intsOf (l : List Nat) : List ℤ := l.map Nat.cast

/-- Common path of operations.transpose after axis sanitation: the new
split axis is the index of the old split axis within the permutation
(python line 567; ValueError-class failure when the old split axis is
absent), torch permute validates that the axes form a permutation of the
range (its RuntimeError is re-raised as a ValueError, python lines
572-579), and on success the result permutes global shape, local shape
and local data, with the relabelled split. -/
def transposeCore (a : HTensor) (axes : List ℤ) : Except Err HTensor :=
  let n := a.gshape.length
  let splitE : Except Err (Option Nat) :=
    match a.split with
    | none => .ok none
    | some s =>
      if (s : ℤ) ∈ axes then .ok (some (axes.indexOf (s : ℤ)))
      else .error .valueError
  match splitE with
  | .error e => .error e
  | .ok split2 =>
    if List.Perm axes (intsOf (List.range n)) then
      .ok ⟨axes.map (fun j => a.gshape.getD j.toNat 0),
           axes.map (fun j => a.lshape.getD j.toNat 0),
           fun idx => a.data ((List.range n).map (fun k => idx.getD (axes.indexOf ((k : Nat) : ℤ)) 0)),
           a.dtype, split2, a.device, a.comm⟩
    else .error .valueError

/-- Embedding of operations.transpose: default axes are the full
reversal of the range; supplied axes are length-checked and negative
entries normalized by adding the rank before the common path. -/
def transpose (a : HTensor) (axes0 : Option (List ℤ)) : Except Err HTensor :=
  match axes0 with
  | none => transposeCore a (intsOf ((List.range a.gshape.length).reverse))
  | some axs =>
    if axs.length ≠ a.gshape.length then .error .valueError
    else transposeCore a (axs.map (fun ax => if ax < 0 then ax + a.gshape.length else ax))

/-- indexOf commutes with the embedding of naturals into integers. -/
lemma indexOf_intsOf (l : List Nat) (a : Nat) :
    (intsOf l).indexOf ((a : ℤ)) = l.indexOf a := by
  induction l with
  | nil => rfl
  | cons b t ih =>
    simp only [intsOf, List.map_cons]
    by_cases h : b = a
    · subst h
      rw [List.indexOf_cons_self, List.indexOf_cons_self]
    · have h2 : ((b : ℤ)) ≠ ((a : ℤ)) := by exact_mod_cast h
      rw [List.indexOf_cons_ne _ h2, List.indexOf_cons_ne _ h]
      rw [← intsOf] at *
      rw [ih]

/-- Membership transfers along the integer embedding. -/
lemma mem_intsOf (l : List Nat) (a : Nat) : ((a : ℤ) ∈ intsOf l) ↔ a ∈ l := by
  simp [intsOf]

/-- Normalizing a list of nonnegative integer axes is the identity. -/
lemma normalize_intsOf (l : List Nat) (m : Nat) :
    (intsOf l).map (fun ax : ℤ => if ax < 0 then ax + m else ax) = intsOf l := by
  simp only [intsOf, List.map_map]
  apply List.map_congr_left
  intro i _
  simp only [Function.comp_apply]
  split <;> omega

/-- Position of the element standing at index j of a duplicate-free
list. -/
lemma nodup_indexOf_getD {l : List Nat} (hnd : l.Nodup) (j : Nat) (hj : j < l.length) :
    l.indexOf (l.getD j 0) = j := by
  rw [List.getD_eq_getElem _ _ hj]
  have hmem : l[j] ∈ l := List.getElem_mem hj
  have hlt : l.indexOf l[j] < l.length := List.indexOf_lt_length.2 hmem
  have hget := List.getElem_indexOf hlt
  exact (List.Nodup.getElem_inj_iff hnd).1 hget

/-- Element of the reversed range. -/
lemma revRange_getD (n j : Nat) (hj : j < n) :
    ((List.range n).reverse).getD j 0 = n - 1 - j := by
  have hj2 : j < ((List.range n).reverse).length := by simpa using hj
  rw [List.getD_eq_getElem _ _ hj2, List.getElem_reverse]
  simp only [List.getElem_range, List.length_range]

/-- Position of an element within the reversed range. -/
lemma revRange_indexOf (n k : Nat) (hk : k < n) :
    ((List.range n).reverse).indexOf k = n - 1 - k := by
  have hnd : ((List.range n).reverse).Nodup := List.nodup_reverse.2 (List.nodup_range n)
  have hlt : n - 1 - k < n := by omega
  have hlen : n - 1 - k < ((List.range n).reverse).length := by simpa using hlt
  have hval : ((List.range n).reverse).getD (n - 1 - k) 0 = k := by
    rw [revRange_getD n (n - 1 - k) hlt]; omega
  have := nodup_indexOf_getD hnd (n - 1 - k) hlen
  rw [hval] at this
  exact this

/-- Permuted shape lookups forget the integer embedding. -/
lemma map_toNat_intsOf (p : List Nat) (g : List Nat) :
    (intsOf p).map (fun j => g.getD j.toNat 0) = p.map (fun j => g.getD j 0) := by
  simp only [intsOf, List.map_map]
  apply List.map_congr_left
  intro j _
  simp

/-- Characterization of the common transpose path on the integer
embedding of a valid permutation of the axis numbers. -/
lemma transposeCore_spec (a : HTensor) (p : List Nat)
    (hp : List.Perm p (List.range a.gshape.length))
    (hs : ∀ s ∈ a.split, s < a.gshape.length) :
    ∃ r, transposeCore a (intsOf p) = .ok r ∧
      r.gshape = p.map (fun j => a.gshape.getD j 0) ∧
      r.lshape = p.map (fun j => a.lshape.getD j 0) ∧
      r.split = a.split.map (fun s => p.indexOf s) ∧
      r.dtype = a.dtype ∧ r.device = a.device ∧ r.comm = a.comm ∧
      (∀ idx : List Nat,
        r.data idx = a.data ((List.range a.gshape.length).map
          (fun k => idx.getD (p.indexOf k) 0))) := by
  have hperm : List.Perm (intsOf p) (intsOf (List.range a.gshape.length)) := hp.map _
  cases hsplit : a.split with
  | none =>
    simp only [transposeCore, hsplit, hperm, if_true]
    refine ⟨_, rfl, ?_, ?_, rfl, rfl, rfl, rfl, ?_⟩
    · exact map_toNat_intsOf p a.gshape
    · exact map_toNat_intsOf p a.lshape
    · intro idx
      simp only [indexOf_intsOf]
  | some s =>
    have hsn : s < a.gshape.length := hs s (by simp [hsplit])
    have hmem : ((s : ℤ)) ∈ intsOf p :=
      (mem_intsOf p s).2 (hp.mem_iff.2 (List.mem_range.2 hsn))
    simp only [transposeCore, hsplit, hmem, if_true, hperm]
    refine ⟨_, rfl, ?_, ?_, ?_, rfl, rfl, rfl, ?_⟩
    · exact map_toNat_intsOf p a.gshape
    · exact map_toNat_intsOf p a.lshape
    · simp [indexOf_intsOf]
    · intro idx
      simp only [indexOf_intsOf]

/-- The inverse permutation has no duplicate entries. -/
lemma invPerm_nodup (p : List Nat) (n : Nat) (hp : List.Perm p (List.range n)) :
    (invPerm p).Nodup := by
  have hlen : p.length = n := by simpa using hp.length_eq
  rw [invPerm, hlen]
  refine List.Nodup.map_on ?_ (List.nodup_range n)
  intro x hx y hy hxy
  have hxp : x ∈ p := hp.mem_iff.2 hx
  have hyp : y ∈ p := hp.mem_iff.2 hy
  have hb1 : p.indexOf x < p.length := List.indexOf_lt_length.2 hxp
  have hb2 : p.indexOf y < p.length := List.indexOf_lt_length.2 hyp
  have h1 := List.getElem_indexOf hb1
  have h2 := List.getElem_indexOf hb2
  simp only [hxy] at h1
  rw [h2] at h1
  exact h1.symm

/-- The inverse permutation is again a permutation of the range. -/
lemma invPerm_perm (p : List Nat) (n : Nat) (hp : List.Perm p (List.range n)) :
    List.Perm (invPerm p) (List.range n) := by
  have hlen : p.length = n := by simpa using hp.length_eq
  have hnd := invPerm_nodup p n hp
  have hsub : invPerm p ⊆ List.range n := by
    intro x hx
    rw [invPerm, hlen] at hx
    obtain ⟨i, hi, rfl⟩ := List.mem_map.1 hx
    have hip : i ∈ p := hp.mem_iff.2 hi
    have := List.indexOf_lt_length.2 hip
    rw [List.mem_range]
    omega
  have hsp : List.Subperm (invPerm p) (List.range n) := List.subperm_of_subset hnd hsub
  refine List.Subperm.perm_of_length_le hsp ?_
  simp [invPerm, hlen]

/-- Looking the image of an axis up in the inverse permutation recovers
the axis. -/
lemma invPerm_cancel (p : List Nat) (n s : Nat) (hp : List.Perm p (List.range n))
    (hs : s < n) :
    (invPerm p).indexOf (p.indexOf s) = s := by
  have hlen : p.length = n := by simpa using hp.length_eq
  have hnd := invPerm_nodup p n hp
  have hlen2 : (invPerm p).length = n := by simp [invPerm, hlen]
  have hsl : s < (invPerm p).length := by omega
  have hval : (invPerm p).getD s 0 = p.indexOf s := by
    rw [invPerm, hlen]
    rw [List.getD_eq_getElem _ _ (by simpa using hs)]
    simp
  have h := nodup_indexOf_getD hnd s hsl
  rw [hval] at h
  exact h

/-- Applying the reversed-range axis lookup twice gives back the
original shape list. -/
lemma revMap_involution (n : Nat) (g : List Nat) (hg : g.length = n) :
    ((List.range n).reverse).map (fun j =>
      (((List.range n).reverse).map (fun i => g.getD i 0)).getD j 0) = g := by
  apply List.ext_getElem
  · simp [hg]
  · intro j h1 h2
    have hjn : j < n := by simpa using h1
    simp only [List.getElem_map, List.getElem_reverse, List.length_reverse,
      List.length_range, List.getElem_range]
    have hb : n - 1 - j < n := by omega
    have hb2 : n - 1 - j <
        (((List.range n).reverse).map (fun i => g.getD i 0)).length := by
      simp [hb]
    rw [List.getD_eq_getElem _ _ hb2]
    simp only [List.getElem_map, List.getElem_reverse, List.length_reverse,
      List.length_range, List.getElem_range]
    have heq : n - 1 - (n - 1 - j) = j := by omega
    rw [heq, List.getD_eq_getElem _ _ h2]

/-- Undoing the reversed-range data permutation twice gives back the
original index list. -/
lemma sigma_rev_cancel (n : Nat) (idx : List Nat) (hidx : idx.length = n) :
    (List.range n).map (fun k =>
      ((List.range n).map (fun m => idx.getD (((List.range n).reverse).indexOf m) 0)).getD
        (((List.range n).reverse).indexOf k) 0) = idx := by
  apply List.ext_getElem
  · simp [hidx]
  · intro j h1 h2
    have hjn : j < n := by simpa using h1
    simp only [List.getElem_map, List.getElem_range]
    rw [revRange_indexOf n j hjn]
    have hb : n - 1 - j < n := by omega
    have hb2 : n - 1 - j <
        ((List.range n).map
          (fun m => idx.getD (((List.range n).reverse).indexOf m) 0)).length := by
      simp [hb]
    rw [List.getD_eq_getElem _ _ hb2]
    simp only [List.getElem_map, List.getElem_range]
    rw [revRange_indexOf n (n - 1 - j) hb]
    have heq : n - 1 - (n - 1 - j) = j := by omega
    rw [heq, List.getD_eq_getElem _ _ h2]

/-- C8: double transpose with default (full-reversal) axes restores the
tensor's global shape, split axis, dtype and data; and transposing by a
valid permutation p (a single transpose relabelling the split axis to
the position of the old split axis within p, none staying none) followed
by the inverse permutation of p restores the original split-axis
label. -/
theorem transpose_inverse (a : HTensor)
    (hs : ∀ s ∈ a.split, s < a.gshape.length) :
    (∃ r1 r2, transpose a none = .ok r1 ∧ transpose r1 none = .ok r2 ∧
      r2.gshape = a.gshape ∧ r2.split = a.split ∧ r2.dtype = a.dtype ∧
      (∀ idx : List Nat, idx.length = a.gshape.length → r2.data idx = a.data idx)) ∧
    (∀ p : List Nat, List.Perm p (List.range a.gshape.length) →
      ∃ r1 r2, transpose a (some (intsOf p)) = .ok r1 ∧
        transpose r1 (some (intsOf (invPerm p))) = .ok r2 ∧
        r1.split = a.split.map (fun s => p.indexOf s) ∧
        r2.split = a.split) := by
  constructor
  · have hrev : List.Perm ((List.range a.gshape.length).reverse)
        (List.range a.gshape.length) := List.reverse_perm _
    obtain ⟨r1, h1res, h1g, h1l, h1s, h1d, h1dev, h1c, h1data⟩ :=
      transposeCore_spec a ((List.range a.gshape.length).reverse) hrev hs
    have hlen1 : r1.gshape.length = a.gshape.length := by rw [h1g]; simp
    have hs1 : ∀ t ∈ r1.split, t < r1.gshape.length := by
      intro t ht
      rw [h1s] at ht
      rw [hlen1]
      cases hsp : a.split with
      | none => rw [hsp] at ht; simp at ht
      | some s =>
        rw [hsp] at ht
        simp only [Option.map_some', Option.mem_def, Option.some.injEq] at ht
        have hsn : s < a.gshape.length := hs s (by simp [hsp])
        rw [← ht, revRange_indexOf _ s hsn]
        omega
    have hrev2 : List.Perm ((List.range a.gshape.length).reverse)
        (List.range r1.gshape.length) := by rw [hlen1]; exact hrev
    obtain ⟨r2, h2res, h2g, h2l, h2s, h2d, h2dev, h2c, h2data⟩ :=
      transposeCore_spec r1 ((List.range a.gshape.length).reverse) hrev2 hs1
    have h2res' : transpose r1 none = .ok r2 := by
      show transposeCore r1 (intsOf ((List.range r1.gshape.length).reverse)) = .ok r2
      rw [hlen1]
      exact h2res
    refine ⟨r1, r2, h1res, h2res', ?_, ?_, h2d.trans h1d, ?_⟩
    · rw [h2g, h1g]
      exact revMap_involution a.gshape.length a.gshape rfl
    · rw [h2s, h1s]
      cases hsp : a.split with
      | none => rfl
      | some s =>
        have hsn : s < a.gshape.length := hs s (by simp [hsp])
        simp only [Option.map_some']
        rw [revRange_indexOf _ s hsn]
        have hb : a.gshape.length - 1 - s < a.gshape.length := by omega
        rw [revRange_indexOf _ _ hb]
        congr 1
        omega
    · intro idx hidx
      have e2 := h2data idx
      rw [hlen1] at e2
      rw [e2, h1data]
      congr 1
      exact sigma_rev_cancel a.gshape.length idx hidx
  · intro p hp
    have hlenp : p.length = a.gshape.length := by simpa using hp.length_eq
    obtain ⟨r1, h1res, h1g, h1l, h1s, h1d, h1dev, h1c, h1data⟩ :=
      transposeCore_spec a p hp hs
    have hlen0 : ¬ ((intsOf p).length ≠ a.gshape.length) := by simp [intsOf, hlenp]
    have h1res' : transpose a (some (intsOf p)) = .ok r1 := by
      show (if (intsOf p).length ≠ a.gshape.length then Except.error Err.valueError
            else transposeCore a
              ((intsOf p).map (fun ax => if ax < 0 then ax + a.gshape.length else ax)))
          = .ok r1
      rw [if_neg hlen0, normalize_intsOf]
      exact h1res
    have hlen1 : r1.gshape.length = a.gshape.length := by rw [h1g]; simp [hlenp]
    have hs1 : ∀ t ∈ r1.split, t < r1.gshape.length := by
      intro t ht
      rw [h1s] at ht
      rw [hlen1]
      cases hsp : a.split with
      | none => rw [hsp] at ht; simp at ht
      | some s =>
        rw [hsp] at ht
        simp only [Option.map_some', Option.mem_def, Option.some.injEq] at ht
        have hsn : s < a.gshape.length := hs s (by simp [hsp])
        have hmem : s ∈ p := hp.mem_iff.2 (List.mem_range.2 hsn)
        have := List.indexOf_lt_length.2 hmem
        omega
    have hq : List.Perm (invPerm p) (List.range a.gshape.length) :=
      invPerm_perm p a.gshape.length hp
    have hq2 : List.Perm (invPerm p) (List.range r1.gshape.length) := by
      rw [hlen1]; exact hq
    obtain ⟨r2, h2res, h2g, h2l, h2s, h2d, h2dev, h2c, h2data⟩ :=
      transposeCore_spec r1 (invPerm p) hq2 hs1
    have hlenq : (invPerm p).length = a.gshape.length := by simp [invPerm, hlenp]
    have hlen02 : ¬ ((intsOf (invPerm p)).length ≠ r1.gshape.length) := by
      simp [intsOf, hlenq, hlen1]
    have h2res' : transpose r1 (some (intsOf (invPerm p))) = .ok r2 := by
      show (if (intsOf (invPerm p)).length ≠ r1.gshape.length then Except.error Err.valueError
            else transposeCore r1
              ((intsOf (invPerm p)).map
                (fun ax => if ax < 0 then ax + r1.gshape.length else ax)))
          = .ok r2
      rw [if_neg hlen02, normalize_intsOf]
      exact h2res
    refine ⟨r1, r2, h1res', h2res', h1s, ?_⟩
    rw [h2s, h1s]
    cases hsp : a.split with
    | none => rfl
    | some s =>
      have hsn : s < a.gshape.length := hs s (by simp [hsp])
      simp only [Option.map_some']
      rw [invPerm_cancel p a.gshape.length s hp hsn]

/-- Rank-2 tensor with distinct extents split along axis 0. -/
def sampleRect : HTensor :=
  ⟨[2, 3], [2, 3], fun idx => (idx.headD 0 : ℚ), .float32, some 0, none, some soloComm⟩

/-- Witness for C8 at a concrete rank-2 tensor and the swap
permutation. -/
theorem transpose_inverse_witness :
    (∀ s ∈ sampleRect.split, s < sampleRect.gshape.length) ∧
    List.Perm [1, 0] (List.range sampleRect.gshape.length) ∧
    (∃ r1 r2, transpose sampleRect none = .ok r1 ∧ transpose r1 none = .ok r2 ∧
      r2.gshape = [2, 3] ∧ r2.split = some 0 ∧
      r2.data [1, 2] = sampleRect.data [1, 2]) ∧
    (∃ r1 r2, transpose sampleRect (some (intsOf [1, 0])) = .ok r1 ∧
      transpose r1 (some (intsOf (invPerm [1, 0]))) = .ok r2 ∧
      r1.split = some 1 ∧ r2.split = some 0) := by
  refine ⟨by decide, by decide, ?_, ?_⟩
  · obtain ⟨r1, r2, h1, h2, hg, hsp, hd, hdata⟩ :=
      (transpose_inverse sampleRect (by decide)).1
    exact ⟨r1, r2, h1, h2, by rw [hg]; rfl, by rw [hsp]; rfl, hdata [1, 2] (by decide)⟩
  · obtain ⟨r1, r2, h1, h2, hs1, hs2⟩ :=
      (transpose_inverse sampleRect (by decide)).2 [1, 0] (by decide)
    exact ⟨r1, r2, h1, h2, by rw [hs1]; rfl, by rw [hs2]; rfl⟩

/-- The split-aware diagonal-offset correction of __tri_op (python lines
639-643): for a tensor split along the second-to-last axis the offset is
added to k, for one split along the last axis it is subtracted, and
otherwise k is unchanged. -/
def triKorr (m : HTensor) (k : ℤ) (c : Comm) : ℤ :=
  match m.split with
  | none => k
  | some s =>
    if s + 1 = m.gshape.length - 1 then k + (c.chunkOffset m.gshape s : ℤ)
    else if s = m.gshape.length - 1 then k - (c.chunkOffset m.gshape s : ℤ)
    else k

/-- Embedding of itertools.product over per-dimension index ranges
(python lines 650-651): all combinations of leading indices in row-major
order. -/
def cartProd : List Nat → List (List Nat)
  | [] => [[]]
  | r :: rs => (List.range r).flatMap (fun i => (cartProd rs).map (fun t => i :: t))

/-- One pass of the rank-greater-2 loop body of __tri_op: the 2-D result
of the triangular kernel for one combination of leading indices is
written into the output buffer over the full trailing 2-D slice. -/
def writeSlice (orig : List Nat → ℚ) (op : (List Nat → ℚ) → ℤ → (List Nat → ℚ)) (k : ℤ)
    (dims : Nat) (acc : List Nat → ℚ) (lead : List Nat) : List Nat → ℚ :=
  fun idx =>
    if idx.take (dims - 2) = lead ∧ idx.length = dims then
      op (fun ij => orig (lead ++ ij)) k (idx.drop (dims - 2))
    else acc idx

/-- Embedding of operations.__tri_op.  The chunk offset is obtained from
the communicator, a rank-1 input is expanded into a square with the
offset-corrected diagonal, a rank-2 input gets the local 2-D kernel once
over the whole local slice with the corrected offset, and higher ranks
iterate the corrected kernel over every combination of leading indices,
writing into an output buffer cloned from the input. -/
def tri_op (m : HTensor) (k : ℤ) (op : (List Nat → ℚ) → ℤ → (List Nat → ℚ)) :
    Except Err HTensor :=
  match m.comm with
  | none => .error .crash
  | some c =>
    let offset : Nat := match m.split with
      | none => 0
      | some s => c.chunkOffset m.gshape s
    let dims := m.gshape.length
    if dims = 1 then
      .ok ⟨[m.gshape.getD 0 0, m.gshape.getD 0 0],
           [m.gshape.getD 0 0, m.lshape.getD 0 0],
           op (fun idx => m.data (idx.drop 1)) (k - (offset : ℤ)),
           m.dtype,
           (match m.split with | none => none | some _ => some 1),
           m.device, m.comm⟩
    else
      if dims = 2 then
        .ok { m with data := op m.data (triKorr m k c) }
      else
        .ok { m with
              data := (cartProd (m.lshape.take (dims - 2))).foldl
                        (writeSlice m.data op (triKorr m k c) dims) m.data }

/-- Membership in the cartesian product of index ranges. -/
lemma mem_cartProd (rs : List Nat) (l : List Nat) :
    l ∈ cartProd rs ↔
      l.length = rs.length ∧ ∀ i, i < rs.length → l.getD i 0 < rs.getD i 0 := by
  induction rs generalizing l with
  | nil =>
    constructor
    · intro h
      simp [cartProd] at h
      subst h
      simp
    · rintro ⟨h1, -⟩
      have h2 : l = [] := by simpa using h1
      subst h2
      simp [cartProd]
  | cons r rs ih =>
    constructor
    · intro h
      simp only [cartProd, List.mem_flatMap, List.mem_map, List.mem_range] at h
      obtain ⟨i, hi, t, ht, rfl⟩ := h
      obtain ⟨hl, hb⟩ := (ih t).1 ht
      refine ⟨by simp [hl], ?_⟩
      intro j hj
      cases j with
      | zero => simpa using hi
      | succ j2 =>
        simp only [List.getD_cons_succ]
        exact hb j2 (by simp at hj; omega)
    · rintro ⟨hl, hb⟩
      cases l with
      | nil => simp at hl
      | cons a t =>
        simp only [List.length_cons] at hl
        have ha : a < r := by
          have h0 := hb 0 (by simp)
          simpa using h0
        have htb : ∀ i, i < rs.length → t.getD i 0 < rs.getD i 0 := by
          intro i hi
          have := hb (i + 1) (by simp; omega)
          simpa using this
        have ht : t ∈ cartProd rs := (ih t).2 ⟨by omega, htb⟩
        simp only [cartProd, List.mem_flatMap, List.mem_map, List.mem_range]
        exact ⟨a, ha, t, ht, rfl⟩

/-- Closed form of the write-back loop: after folding over a list of
leading index combinations, a position holds the kernel output when its
leading part is listed and the index has full rank, and the accumulator
value otherwise. -/
lemma foldl_writeSlice (orig : List Nat → ℚ) (op : (List Nat → ℚ) → ℤ → (List Nat → ℚ))
    (k : ℤ) (dims : Nat) (L : List (List Nat)) (acc : List Nat → ℚ) (idx : List Nat) :
    (L.foldl (writeSlice orig op k dims) acc) idx =
      if idx.take (dims - 2) ∈ L ∧ idx.length = dims then
        op (fun ij => orig (idx.take (dims - 2) ++ ij)) k (idx.drop (dims - 2))
      else acc idx := by
  induction L generalizing acc with
  | nil => simp
  | cons a L ih =>
    rw [List.foldl_cons, ih]
    by_cases h1 : idx.take (dims - 2) ∈ L ∧ idx.length = dims
    · rw [if_pos h1, if_pos ⟨List.mem_cons_of_mem a h1.1, h1.2⟩]
    · rw [if_neg h1]
      show (if idx.take (dims - 2) = a ∧ idx.length = dims then
          op (fun ij => orig (a ++ ij)) k (idx.drop (dims - 2))
        else acc idx) = _
      by_cases h2 : idx.take (dims - 2) = a ∧ idx.length = dims
      · have hmem : idx.take (dims - 2) ∈ a :: L := by
          rw [h2.1]; exact List.mem_cons_self a L
        rw [if_pos h2, if_pos ⟨hmem, h2.2⟩, h2.1]
      · have h3 : ¬ (idx.take (dims - 2) ∈ a :: L ∧ idx.length = dims) := by
          rintro ⟨hmem, hlen⟩
          rcases List.mem_cons.1 hmem with heq | hmem2
          · exact h2 ⟨heq, hlen⟩
          · exact h1 ⟨hmem2, hlen⟩
        rw [if_neg h2, if_neg h3]

/-- C4: on a rank-2 tensor the triangular dispatcher calls the local 2-D
primitive exactly once over the whole local slice, with the diagonal
offset corrected by the process chunk offset: plus the offset when the
split axis is 0, minus the offset when it is 1, and unchanged when the
tensor is unsplit. -/
theorem tri_rank2 (m : HTensor) (k : ℤ) (op : (List Nat → ℚ) → ℤ → (List Nat → ℚ))
    (c : Comm) (hc : m.comm = some c) (hrank : m.gshape.length = 2) :
    (m.split = none → tri_op m k op = .ok { m with data := op m.data k }) ∧
    (m.split = some 0 → tri_op m k op =
      .ok { m with data := op m.data (k + (c.chunkOffset m.gshape 0 : ℤ)) }) ∧
    (m.split = some 1 → tri_op m k op =
      .ok { m with data := op m.data (k - (c.chunkOffset m.gshape 1 : ℤ)) }) := by
  refine ⟨?_, ?_, ?_⟩ <;> intro hsp <;>
    simp [tri_op, triKorr, hc, hsp, hrank]

/-- Square matrix of global shape (2, 2) split along axis 0 on a
distributed communicator. -/
def sampleSq : HTensor :=
  ⟨[2, 2], [2, 2], fun idx => (idx.sum : ℚ), .float32, some 0, none, some distComm⟩

/-- A concrete local 2-D lower-triangle kernel (torch.tril on index
functions): keeps the elements with column at most row plus offset. -/
def trilOp : (List Nat → ℚ) → ℤ → (List Nat → ℚ) :=
  fun dat k2 => fun ij =>
    if ((ij.getD 1 0 : ℤ)) ≤ (ij.getD 0 0 : ℤ) + k2 then dat ij else 0

/-- Witness for C4: the rank-2 split-0 case at a concrete matrix. -/
theorem tri_rank2_witness :
    sampleSq.comm = some distComm ∧ sampleSq.gshape.length = 2 ∧
    sampleSq.split = some 0 ∧
    tri_op sampleSq 0 trilOp =
      .ok { sampleSq with
            data := trilOp sampleSq.data (0 + (distComm.chunkOffset sampleSq.gshape 0 : ℤ)) } :=
  ⟨rfl, rfl, rfl, (tri_rank2 sampleSq 0 trilOp distComm rfl rfl).2.1 rfl⟩

/-- Lookup inside a take stays the original lookup below both bounds. -/
lemma getD_take_lt (l : List Nat) (n i : Nat) (hi : i < n) (hl : i < l.length) :
    (l.take n).getD i 0 = l.getD i 0 := by
  have h1 : i < (l.take n).length := by
    simp only [List.length_take]
    omega
  rw [List.getD_eq_getElem _ _ h1, List.getD_eq_getElem _ _ hl]
  simp [List.getElem_take]

/-- C9: on a tensor of rank greater than 2 the triangular dispatcher
writes into an output buffer that starts as a clone of the input and
applies the corrected 2-D kernel independently to each trailing 2-D
slice over every in-bounds combination of leading indices; every
position not covered by a 2-D application keeps the input's value, the
input tensor is left untouched, and the result's metadata equals the
input's. -/
theorem tri_high_rank (m : HTensor) (k : ℤ) (op : (List Nat → ℚ) → ℤ → (List Nat → ℚ))
    (c : Comm) (hc : m.comm = some c) (hrank : 2 < m.gshape.length)
    (hl : m.lshape.length = m.gshape.length) :
    ∃ r, tri_op m k op = .ok r ∧ r.gshape = m.gshape ∧ r.lshape = m.lshape ∧
      r.split = m.split ∧ r.dtype = m.dtype ∧
      (∀ idx : List Nat, idx.length = m.gshape.length →
        ((∀ i, i < m.gshape.length - 2 → idx.getD i 0 < m.lshape.getD i 0) →
          r.data idx = op (fun ij => m.data (idx.take (m.gshape.length - 2) ++ ij))
            (triKorr m k c) (idx.drop (m.gshape.length - 2))) ∧
        (¬ (∀ i, i < m.gshape.length - 2 → idx.getD i 0 < m.lshape.getD i 0) →
          r.data idx = m.data idx)) ∧
      (∀ idx : List Nat, idx.length ≠ m.gshape.length → r.data idx = m.data idx) := by
  have h1 : ¬ (m.gshape.length = 1) := by omega
  have h2 : ¬ (m.gshape.length = 2) := by omega
  refine ⟨⟨m.gshape, m.lshape,
      (cartProd (m.lshape.take (m.gshape.length - 2))).foldl
        (writeSlice m.data op (triKorr m k c) m.gshape.length) m.data,
      m.dtype, m.split, m.device, m.comm⟩,
    ?_, rfl, rfl, rfl, rfl, ?_, ?_⟩
  · simp [tri_op, hc, h1, h2]
  · intro idx hlen
    constructor
    · intro hb
      have hmem : idx.take (m.gshape.length - 2) ∈
          cartProd (m.lshape.take (m.gshape.length - 2)) := by
        rw [mem_cartProd]
        constructor
        · simp only [List.length_take]
          omega
        · intro i hi
          have hi2 : i < m.gshape.length - 2 := by
            simp only [List.length_take] at hi
            omega
          rw [getD_take_lt _ _ _ hi2 (by omega), getD_take_lt _ _ _ hi2 (by omega)]
          exact hb i hi2
      show (cartProd (m.lshape.take (m.gshape.length - 2))).foldl
          (writeSlice m.data op (triKorr m k c) m.gshape.length) m.data idx = _
      rw [foldl_writeSlice, if_pos ⟨hmem, hlen⟩]
    · intro hnb
      have hnmem : ¬ (idx.take (m.gshape.length - 2) ∈
          cartProd (m.lshape.take (m.gshape.length - 2)) ∧
          idx.length = m.gshape.length) := by
        rintro ⟨hmem, -⟩
        apply hnb
        intro i hi2
        rw [mem_cartProd] at hmem
        have hbound := hmem.2 i (by simp only [List.length_take]; omega)
        rw [getD_take_lt _ _ _ hi2 (by omega), getD_take_lt _ _ _ hi2 (by omega)] at hbound
        exact hbound
      show (cartProd (m.lshape.take (m.gshape.length - 2))).foldl
          (writeSlice m.data op (triKorr m k c) m.gshape.length) m.data idx = _
      rw [foldl_writeSlice, if_neg hnmem]
  · intro idx hne
    show (cartProd (m.lshape.take (m.gshape.length - 2))).foldl
        (writeSlice m.data op (triKorr m k c) m.gshape.length) m.data idx = _
    rw [foldl_writeSlice, if_neg (fun hcon => hne hcon.2)]

/-- Cube of global shape (2, 2, 2) split along axis 0 on a distributed
communicator, with pairwise distinct entries. -/
def sampleCube : HTensor :=
  ⟨[2, 2, 2], [2, 2, 2],
   fun idx => ((idx.foldl (fun a i => 10 * a + i) 1 : Nat) : ℚ),
   .float32, some 0, none, some distComm⟩

/-- Witness for C9 at a concrete rank-3 tensor: one element zeroed by the
2-D kernel and one kept. -/
theorem tri_high_rank_witness :
    sampleCube.comm = some distComm ∧ 2 < sampleCube.gshape.length ∧
    sampleCube.lshape.length = sampleCube.gshape.length ∧
    ∃ r, tri_op sampleCube (-1) trilOp = .ok r ∧ r.gshape = [2, 2, 2] ∧
      r.data [1, 0, 1] = 0 ∧ r.data [1, 1, 0] = sampleCube.data [1, 1, 0] := by
  refine ⟨rfl, by decide, rfl, ?_⟩
  obtain ⟨r, hres, hg, hl2, hsp2, hd2, hdata, -⟩ :=
    tri_high_rank sampleCube (-1) trilOp distComm rfl (by decide) rfl
  refine ⟨r, hres, by rw [hg]; rfl, ?_, ?_⟩
  · have hx := (hdata [1, 0, 1] (by decide)).1 (by decide)
    rw [hx]
    rfl
  · have hx := (hdata [1, 1, 0] (by decide)).1 (by decide)
    rw [hx]
    rfl

end Heat
